import Mathlib

/-!
# Verification of the LogHub backend core (bulk ingestion and log query engine)

Shallow embedding of `src/index.ts` (bulk ingestion endpoint, query endpoint,
project deletion endpoint) together with the schema facts of
`src/models/log.ts`, and proofs of the specification's testable properties.

The external record store (MongoDB via mongoose) is modelled as a pure list of
documents; its documented operator semantics (`$in`, `$gte`/`$lte` on strings,
case-insensitive `$regex`, `countDocuments`, `skip`/`limit`, `deleteMany`,
per-document schema validation inside `insertMany`) are embedded as executable
Lean functions on that list.
-/

set_option autoImplicit false

namespace LogHub

universe u
variable {α : Type u} {β : Type u}

/-! ## Data model -/

/-- An incoming log entry of a bulk ingestion request
(`req.body.logs` element).  The request JSON may in principle already carry a
`projectId` key of its own; `selfProjectId` represents that key (`none` when
the entry arrives without it). -/
structure LogEntry where
  timestamp : String
  level : String
  component : String
  message : String
  raw : String
  streamId : String
  selfProjectId : Option String
deriving DecidableEq

/-- A document as submitted to the store by the bulk endpoint, i.e. an element
of `logsToInsert` in `src/index.ts`.  Its `projectId` is whatever the spread
`\x7b...l, projectId\x7d` produced: the request-level `projectId`, which may be
absent (`none`) when the request body carried none. -/
structure InsertDoc where
  timestamp : String
  level : String
  component : String
  message : String
  raw : String
  streamId : String
  projectId : Option String
deriving DecidableEq

/-- A persisted log record (schema `src/models/log.ts`): `projectId` is
`required: true`, hence always present on stored documents. -/
structure LogRecord where
  timestamp : String
  level : String
  component : String
  message : String
  raw : String
  streamId : String
  projectId : String
deriving DecidableEq

/-- A project record (schema `src/models/project.ts`); only the identity and
name are relevant to the claims. -/
structure Project where
  id : String
  name : String
deriving DecidableEq

/-! ## String comparison and regex model (store operator semantics)

The store compares strings bytewise; on UTF-8 data this agrees with
lexicographic comparison of the character (code point) sequences, embedded
here as `listLe`/`strLe`.  The store's `$regex` with option `i` is modelled by
`regexFindCI` for the pattern fragment exercised in this development: `.`
matches any character other than a newline, and every other character matches
itself case-insensitively; the pattern may occur anywhere in the text
(unanchored search). -/

/-- Case-insensitive character equality (ASCII-style folding via
`Char.toLower`, matching the store's `i` option on the data in scope). -/
def lowEq (a b : Char) : Bool := a.toLower == b.toLower

/-- Lexicographic order on character lists: the comparison the store applies
to string-typed fields such as `timestamp`. -/
def listLe : List Char → List Char → Bool
  | [], _ => true
  | _ :: _, [] => false
  | a :: as, b :: bs => if a = b then listLe as bs else decide (a < b)

/-- String comparison used by the store's `$gte` / `$lte` operators. -/
def strLe (a b : String) : Bool := listLe a.data b.data

/-- One regex pattern character matched against one text character,
case-insensitively: `.` matches anything except a newline, any other
character matches itself up to case.  This covers only the
literal-and-dot fragment of the store's regex dialect; the remaining
metacharacters (`regexMetachars`) are not modelled, and patterns
containing them are outside the model's guarantees. -/
def charMatchCI (p c : Char) : Bool :=
  if p = '.' then !(c == '\n') else lowEq p c

/-- The regex pattern matches a prefix of the text. -/
def regexPrefixCI : List Char → List Char → Bool
  | [], _ => true
  | _ :: _, [] => false
  | p :: ps, c :: cs => charMatchCI p c && regexPrefixCI ps cs

/-- Unanchored case-insensitive regex search: the pattern matches at some
position of the text.  This is the semantics of the store's
`$regex: pat, $options: i` clause for patterns in the modelled fragment:
patterns made of literal characters and `.`.  The store's full regex
dialect gives `*`, `+`, `?`, `|`, anchors, brackets, braces and backslash
escapes special meaning too, which this model does not interpret, so any
theorem equating the code's search with literal substring search must
assume the pattern contains none of those metacharacters at all
(`regexMetachars`), not merely no `.`. -/
def regexFindCI (pat text : String) : Bool :=
  text.data.tails.any (regexPrefixCI pat.data)

/-- The metacharacters of the store's regex dialect: a search term
containing any of these is not interpreted literally by the store (the
model interprets only `.`; the others make the model diverge from the
store, so they are excluded wholesale wherever literal-substring
coincidence is claimed). -/
def regexMetachars : List Char :=
  ['.', '*', '+', '?', '|', '^', '$', '(', ')', '[', ']',
    Char.ofNat 123, Char.ofNat 125, '\\']

/-- Case-insensitive literal prefix test (no metacharacters). -/
def isPrefixCI : List Char → List Char → Bool
  | [], _ => true
  | _ :: _, [] => false
  | a :: as, b :: bs => lowEq a b && isPrefixCI as bs

/-- Case-insensitive literal substring test.  This definition follows the
specification's words (substring / free-text search over a field must be
case-insensitive), to be compared with the code's regex behaviour. -/
def specSubstrCI (pat text : String) : Bool :=
  text.data.tails.any (isPrefixCI pat.data)

/-! ## Bulk ingestion pipeline (`POST /api/logs/bulk`, `src/index.ts:132-188`)

`logsToInsert = logs.map(l => (\x7b ...l, projectId \x7d))` is `stampLog`; the
nested batching loops (outer: `i += BATCH_SIZE * PARALLEL_BATCHES`, inner:
`j < PARALLEL_BATCHES` with an early `break` once `startIdx` reaches the end)
are `ingestWaves`; the per-batch `.then(() => batch.length).catch(() => 0)`
accumulation over `Promise.all` of every wave is `sumOk`.  The loops only
terminate for positive batch size and parallelism; the code fixes
`BATCH_SIZE = 5000` and `PARALLEL_BATCHES = 4`, and the theorems carry the
corresponding positivity hypotheses. -/

/-- Stamping of one incoming entry with the request-level project id:
`\x7b ...l, projectId \x7d` spreads the entry's fields and then the explicit
`projectId` key overwrites any `projectId` the entry carried, so the stamped
document's `projectId` is the request's, unconditionally. -/
def stampLog (pid : Option String) (e : LogEntry) : InsertDoc :=
  { timestamp := e.timestamp, level := e.level, component := e.component,
    message := e.message, raw := e.raw, streamId := e.streamId,
    projectId := pid }

/-- The inner batching loop: starting at index `s`, with `p` remaining slots
in the current wave, emit `l.slice(s, s + B)` and advance by `B`, stopping
(the code's `break`) once `s` reaches the end of the list. -/
def waveSlices (l : List α) (B : Nat) : Nat → Nat → List (List α)
  | 0, _ => []
  | p + 1, s =>
    if s < l.length then ((l.drop s).take B) :: waveSlices l B p (s + B)
    else []

/-- Ceiling division, `Math.ceil(n / m)` for positive `m`. -/
def cld (n m : Nat) : Nat := (n + m - 1) / m

/-- The outer batching loop: one wave per iteration of
`for (i = 0; i < len; i += B * P)`, wave `w` starting at index `w * (B * P)`
and holding at most `P` batches of size `B`. -/
def ingestWaves (l : List α) (B P : Nat) : List (List (List α)) :=
  (List.range (cld l.length (B * P))).map fun w => waveSlices l B P (w * (B * P))

/-- All batches of the request, in dispatch order (waves in order, batches in
slot order within each wave). -/
def dispatchedBatches (l : List α) (B P : Nat) : List (List α) :=
  (ingestWaves l B P).flatten

/-- Outcome of one `insertMany(batch, \x7b ordered: false \x7d)` call for the
`k`-th dispatched batch (0-based; the code logs it as batch `k + 1`):
the environment oracle `env` captures store-level failures (unavailability,
rejection of the whole write), and the write also fails when any document of
the batch fails the schema validation `V` (with `ordered: false` the store
attempts every document but the call still rejects, and the handler's
`.catch` then contributes 0). -/
def batchOk (V : Option String → Bool) (env : Nat → Bool) (k : Nat)
    (b : List InsertDoc) : Bool :=
  env k && b.all fun r => V r.projectId

/-- Aggregation of per-batch results, `k` being the dispatch index of the
first batch in `bs`: a successful batch contributes `batch.length`, a failed
one contributes `0` (its `.catch` handler), and the per-wave sums of
`Promise.all` results accumulate into one running total. -/
def sumOk (ok : Nat → List α → Bool) : Nat → List (List α) → Nat
  | _, [] => 0
  | k, b :: bs => (if ok k b then b.length else 0) + sumOk ok (k + 1) bs

/-- Total size of the batches that fail outright, indexed like `sumOk`. -/
def sumFailed (ok : Nat → List α → Bool) : Nat → List (List α) → Nat
  | _, [] => 0
  | k, b :: bs => (if ok k b then 0 else b.length) + sumFailed ok (k + 1) bs

/-- The `logs` field of a bulk request body: absent (`undefined`), present
but not an array (with its JS truthiness), or an actual array of entries. -/
inductive BodyLogs where
  | absent
  | notArray (truthy : Bool)
  | array (entries : List LogEntry)
deriving DecidableEq

/-- Response of the bulk endpoint: `400 \x7b error: 'No logs provided' \x7d`
or `201 \x7b count \x7d`. -/
inductive BulkResponse where
  | badRequest
  | created (count : Nat)
deriving DecidableEq

/-- Observable outcome of one bulk request: the HTTP response together with
the sequence of batch writes submitted to the store. -/
structure BulkOutcome where
  response : BulkResponse
  attempted : List (List InsertDoc)
deriving DecidableEq

/-- The bulk ingestion handler.  The guard
`!logs || !Array.isArray(logs) || logs.length === 0` rejects an absent field,
any non-array value (falsy values via the first disjunct, truthy non-arrays
via the second) and the empty array, before any store access; otherwise the
entries are stamped, partitioned and written wave by wave. -/
def bulkHandler (pid : Option String) (body : BodyLogs) (B P : Nat)
    (V : Option String → Bool) (env : Nat → Bool) : BulkOutcome :=
  match body with
  | .absent => ⟨.badRequest, []⟩
  | .notArray _ => ⟨.badRequest, []⟩
  | .array entries =>
    if entries.isEmpty then ⟨.badRequest, []⟩
    else
      let batches := dispatchedBatches (entries.map (stampLog pid)) B P
      ⟨.created (sumOk (batchOk V env) 0 batches), batches⟩

/-! ## Wave discipline trace model

The coordinator dispatches every batch of a wave, then `await Promise.all`
joins the wave: no batch of wave `w + 1` is dispatched before every batch of
wave `w` has settled.  `ingestTrace` records this control flow as a sequence
of dispatch/settle events over global batch indices. -/

/-- A batch-lifecycle event: the write for batch `k` is dispatched, or it
settles (fulfilled or rejected). -/
inductive BatchEv where
  | dispatch (k : Nat)
  | settle (k : Nat)
deriving DecidableEq

/-- Recognizer for dispatch events. -/
def isDispatchEv : BatchEv → Bool
  | .dispatch _ => true
  | .settle _ => false

/-- Recognizer for settle events. -/
def isSettleEv : BatchEv → Bool
  | .dispatch _ => false
  | .settle _ => true

/-- Number of batches in each wave, in wave order. -/
def waveSizes (l : List α) (B P : Nat) : List Nat :=
  (ingestWaves l B P).map List.length

/-- Consecutive global batch indices grouped by wave: given the per-wave
batch counts, wave `w` holds the next `ns[w]` indices. -/
def idxGroups : Nat → List Nat → List (List Nat)
  | _, [] => []
  | s, n :: ns => List.range' s n :: idxGroups (s + n) ns

/-- Events of one wave: all its dispatches (in slot order), then all its
settlements — `Promise.all` resolves only after every member settles, so
every settle of the wave precedes anything that follows the `await`. -/
def waveEvents (g : List Nat) : List BatchEv :=
  g.map BatchEv.dispatch ++ g.map BatchEv.settle

/-- The event trace of one bulk request's coordinator loop. -/
def ingestTrace (l : List α) (B P : Nat) : List BatchEv :=
  ((idxGroups 0 (waveSizes l B P)).map waveEvents).flatten

/-- Number of batch writes in flight after a (prefix of a) trace. -/
def inFlight (t : List BatchEv) : Nat :=
  t.countP isDispatchEv - t.countP isSettleEv

/-! ## Query engine (`GET /api/logs/:projectId`, `src/index.ts:90-130`)

Query parameters arrive as strings; JS truthiness makes the empty string
behave like an absent parameter, so each optional string parameter is kept as
`Option String` and an explicit emptiness test mirrors `if (level)` etc.
`limit`/`skip` are modelled after `parseInt` as `Option Nat` (requests whose
`limit`/`skip` do not parse to a number are outside the model).  The store's
`limit(0)` means "no limit". -/

/-- Query parameters of the log listing endpoint. -/
structure QueryParams where
  level : Option String
  search : Option String
  start : Option String
  stop : Option String
  limit : Option Nat
  skip : Option Nat
deriving DecidableEq

/-- Response body of the log listing endpoint. -/
structure QueryResult where
  logs : List LogRecord
  total : Nat
  hasMore : Bool
deriving DecidableEq

/-- Is an optional string parameter present and truthy? -/
def givenStr : Option String → Bool
  | some s => !(s == "")
  | none => false

/-- Split of a character list at every occurrence of `sep` (JS
`String.prototype.split` semantics: `split` of the empty string yields one
empty piece, separators at the ends yield empty pieces). -/
def splitListOn (sep : Char) : List Char → List (List Char)
  | [] => [[]]
  | c :: cs =>
    if c = sep then [] :: splitListOn sep cs
    else
      match splitListOn sep cs with
      | [] => [[c]]
      | h :: t => (c :: h) :: t

/-- JS `level.split(',')`. -/
def splitComma (s : String) : List String :=
  (splitListOn ',' s.data).map List.asString

/-- The `level: \x7b $in: level.split(',') \x7d` clause, added only when the
`level` parameter is truthy. -/
def levelClause (lv : Option String) (r : LogRecord) : Bool :=
  match lv with
  | some s => if s == "" then true else (splitComma s).contains r.level
  | none => true

/-- The `timestamp.$gte = start` clause, added only when `start` is truthy. -/
def gteClause (st : Option String) (r : LogRecord) : Bool :=
  match st with
  | some s => if s == "" then true else strLe s r.timestamp
  | none => true

/-- The `timestamp.$lte = end` clause, added only when `end` is truthy. -/
def lteClause (en : Option String) (r : LogRecord) : Bool :=
  match en with
  | some s => if s == "" then true else strLe r.timestamp s
  | none => true

/-- The `$or` of the three case-insensitive regex clauses over `message`,
`raw` and `component`. -/
def searchMatches (s : String) (r : LogRecord) : Bool :=
  regexFindCI s r.message || regexFindCI s r.raw || regexFindCI s r.component

/-- The search clause, added only when `search` is truthy. -/
def searchClause (se : Option String) (r : LogRecord) : Bool :=
  match se with
  | some s => if s == "" then true else searchMatches s r
  | none => true

/-- The complete filter document built by the handler: `projectId` equality
AND the optional clauses. -/
def matchesQuery (pid : String) (q : QueryParams) (r : LogRecord) : Bool :=
  (r.projectId == pid) && levelClause q.level r && gteClause q.start r
    && lteClause q.stop r && searchClause q.search r

/-- Insertion of a record into a list sorted by timestamp descending. -/
def insertDesc (r : LogRecord) : List LogRecord → List LogRecord
  | [] => [r]
  | x :: xs =>
    if strLe x.timestamp r.timestamp then r :: x :: xs else x :: insertDesc r xs

/-- `sort(\x7b timestamp: -1 \x7d)`: the store returns the matching records
ordered by timestamp descending (order among equal timestamps is not
specified by the store; the model picks insertion order). -/
def sortByTsDesc : List LogRecord → List LogRecord
  | [] => []
  | x :: xs => insertDesc x (sortByTsDesc xs)

/-- The store's `limit(n)` applied to a result list: `limit(0)` is no limit. -/
def applyLimit (lim : Nat) (l : List LogRecord) : List LogRecord :=
  if lim = 0 then l else l.take lim

/-- Effective page limit: `limit ? parseInt(limit) : 50000`. -/
def pageLimitOf (q : QueryParams) : Nat :=
  match q.limit with
  | some n => n
  | none => 50000

/-- Effective page skip: `skip ? parseInt(skip) : 0`. -/
def pageSkipOf (q : QueryParams) : Nat :=
  match q.skip with
  | some n => n
  | none => 0

/-- The query handler: `countDocuments(query)` for `total`, then
`find(query).sort(\x7b timestamp: -1 \x7d).skip(pageSkip).limit(pageLimit)`,
and `hasMore = totalCount > pageSkip + logs.length`. -/
def runQuery (store : List LogRecord) (pid : String) (q : QueryParams) :
    QueryResult :=
  let matching := store.filter (matchesQuery pid q)
  let totalCount := matching.length
  let logs := applyLimit (pageLimitOf q) ((sortByTsDesc matching).drop (pageSkipOf q))
  ⟨logs, totalCount, decide (totalCount > pageSkipOf q + logs.length)⟩

/-! ## Project deletion (`DELETE /api/projects/:id`, `src/index.ts:69-86`) -/

/-- The database state visible to the deletion handler. -/
structure DB where
  logs : List LogRecord
  projects : List Project
deriving DecidableEq

/-- Response body of the deletion endpoint (success case). -/
structure DeleteResult where
  success : Bool
  logsDeleted : Nat
deriving DecidableEq

/-- The deletion handler: `Log.deleteMany(\x7b projectId \x7d)` removes every
log record of the project and reports how many it removed, while
`Project.findByIdAndDelete(projectId)` removes the project record; the
response carries the store's `deletedCount`. -/
def deleteProject (db : DB) (pid : String) : DB × DeleteResult :=
  let removed := db.logs.filter fun r => r.projectId == pid
  let db' : DB :=
    { logs := db.logs.filter fun r => !(r.projectId == pid),
      projects := db.projects.filter fun p => !(p.id == pid) }
  (db', ⟨true, removed.length⟩)

/-! ## Proof helpers: canonical chunking

`chunksAll B l` is the plain left-to-right partition of `l` into chunks of
size `B` (last chunk possibly smaller); `waveChunks B p l` is its truncation
to at most `p` chunks.  They exist only to relate the nested wave loops to
the flat batch sequence. -/

/-- At most `p` leading chunks of size `B`. -/
def waveChunks (B : Nat) : Nat → List α → List (List α)
  | 0, _ => []
  | _ + 1, [] => []
  | p + 1, x :: xs => (x :: xs).take B :: waveChunks B p ((x :: xs).drop B)

/-- All chunks of size `B` (empty for `B = 0`, which the code excludes). -/
def chunksAll (B : Nat) : List α → List (List α)
  | [] => []
  | x :: xs =>
    if _h : B = 0 then []
    else (x :: xs).take B :: chunksAll B ((x :: xs).drop B)
termination_by l => l.length
decreasing_by simp [List.length_drop]; omega

/-! ## Concrete sample values (used by witness instances) -/

/-- The store schema's document validation outcome on the `projectId` field
alone (`required: true` in `src/models/log.ts`): a document whose `projectId`
is absent fails validation.  (The cast of a present value to `ObjectId` can
also fail; theorems therefore quantify over the validation predicate `V`,
assuming only what `required: true` guarantees.) -/
def projectIdRequired : Option String → Bool
  | some _ => true
  | none => false

/-- An always-available store environment: no batch write fails for
store-side reasons. -/
def envAllOk : Nat → Bool := fun _ => true

/-- A sample incoming entry without a `projectId` of its own. -/
def sampleEntry : LogEntry :=
  ⟨"2024-01-01T00:00:00Z", "INFO", "core", "service started", "raw line", "s1",
    none⟩

/-- A sample incoming entry that already carries a `projectId` of its own. -/
def sampleEntrySelf : LogEntry :=
  ⟨"2024-01-01T00:00:01Z", "ERROR", "db", "connection lost", "raw line 2",
    "s1", some "someOtherProject"⟩

/-- Three sample stamped documents. -/
def sampleDocs3 : List InsertDoc :=
  [stampLog (some "proj1") sampleEntry, stampLog (some "proj1") sampleEntrySelf,
    stampLog (some "proj1") sampleEntry]

/-- A sample persisted record owned by project `p1`. -/
def sampleRecord : LogRecord :=
  ⟨"2024-01-02T10:00:00Z", "ERROR", "db", "query failed", "raw error line",
    "s1", "p1"⟩

/-- A second sample persisted record owned by project `p1`. -/
def sampleRecord2 : LogRecord :=
  ⟨"2024-01-02T11:00:00Z", "WARN", "api", "slow response", "raw warn line",
    "s1", "p1"⟩

/-- A sample query with a level set and an inclusive time window. -/
def sampleQuery : QueryParams :=
  ⟨some "ERROR,WARN", none, some "2024-01-01T00:00:00Z",
    some "2024-01-03T00:00:00Z", none, none⟩

/-- A sample database with two records of project `p1` and one project. -/
def sampleDB : DB :=
  ⟨[sampleRecord, sampleRecord2], [⟨"p1", "demo project"⟩]⟩

/-- A record whose message contains the letters `axb` — matched by the regex
`a.b` though `a.b` is not a substring of any of its fields. -/
def regexCexRecord : LogRecord :=
  ⟨"2024-01-02T10:00:00Z", "INFO", "core", "axb", "", "s1", "p1"⟩

/-- A query whose search term `a.b` contains the regex metacharacter `.`. -/
def regexCexQuery : QueryParams :=
  ⟨none, some "a.b", none, none, none, none⟩

/-! ## Helper lemmas: ceiling division and chunking -/

theorem cld_zero {m : Nat} (hm : 0 < m) : cld 0 m = 0 := by
  unfold cld
  exact Nat.div_eq_of_lt (by omega)

theorem cld_step {n m : Nat} (hm : 0 < m) (hn : 0 < n) :
    cld n m = cld (n - m) m + 1 := by
  unfold cld
  rcases le_or_lt n m with h | h
  · have h1 : n - m = 0 := by omega
    have h2 : (0 + m - 1) / m = 0 := Nat.div_eq_of_lt (by omega)
    rw [h1, h2]
    exact Nat.div_eq_of_lt_le (by omega) (by omega)
  · have h3 : n + m - 1 = (n - m + m - 1) + m := by omega
    rw [h3, Nat.add_div_right _ hm]

theorem chunksAll_cons (B : Nat) (hB : B ≠ 0) (x : α) (xs : List α) :
    chunksAll B (x :: xs) = (x :: xs).take B :: chunksAll B ((x :: xs).drop B) := by
  rw [chunksAll]
  simp [hB]

theorem chunksAll_of_ne_nil (B : Nat) (hB : B ≠ 0) (l : List α) (hl : l ≠ []) :
    chunksAll B l = l.take B :: chunksAll B (l.drop B) := by
  cases l with
  | nil => exact absurd rfl hl
  | cons x xs => exact chunksAll_cons B hB x xs

theorem chunksAll_eq_nil_iff (B : Nat) (hB : B ≠ 0) (l : List α) :
    chunksAll B l = [] ↔ l = [] := by
  cases l with
  | nil => simp [chunksAll]
  | cons x xs =>
    rw [chunksAll_cons B hB]
    simp

theorem chunksAll_flatten (B : Nat) (hB : B ≠ 0) (l : List α) :
    (chunksAll B l).flatten = l := by
  have H : ∀ (n : Nat) (l : List α), l.length ≤ n → (chunksAll B l).flatten = l := by
    intro n
    induction n with
    | zero =>
      intro l hl
      have : l = [] := List.length_eq_zero.mp (by omega)
      simp [this, chunksAll]
    | succ n ih =>
      intro l hl
      cases l with
      | nil => simp [chunksAll]
      | cons x xs =>
        have hlen : ((x :: xs).drop B).length ≤ n := by
          simp only [List.length_drop, List.length_cons]
          simp only [List.length_cons] at hl
          omega
        rw [chunksAll_cons B hB, List.flatten_cons, ih _ hlen,
          List.take_append_drop]
  exact H l.length l (Nat.le_refl _)

theorem chunksAll_length (B : Nat) (hB : 0 < B) (l : List α) :
    (chunksAll B l).length = cld l.length B := by
  have H : ∀ (n : Nat) (l : List α), l.length ≤ n →
      (chunksAll B l).length = cld l.length B := by
    intro n
    induction n with
    | zero =>
      intro l hl
      have : l = [] := List.length_eq_zero.mp (by omega)
      simp [this, chunksAll, cld_zero hB]
    | succ n ih =>
      intro l hl
      cases l with
      | nil => simp [chunksAll, cld_zero hB]
      | cons x xs =>
        have hlen : ((x :: xs).drop B).length ≤ n := by
          simp only [List.length_drop, List.length_cons]
          simp only [List.length_cons] at hl
          omega
        rw [chunksAll_cons B (by omega), List.length_cons, ih _ hlen,
          List.length_drop]
        exact (cld_step hB (by simp)).symm
  exact H l.length l (Nat.le_refl _)

theorem waveSlices_eq_waveChunks (l : List α) (B : Nat) :
    ∀ p s, waveSlices l B p s = waveChunks B p (l.drop s) := by
  intro p
  induction p with
  | zero => intro s; rfl
  | succ p ih =>
    intro s
    rw [waveSlices]
    by_cases h : s < l.length
    · rw [if_pos h, ih]
      have hd2 : l.drop (s + B) = (l.drop s).drop B := by
        rw [List.drop_drop]
      cases hd : l.drop s with
      | nil => exact absurd (List.drop_eq_nil_iff.mp hd) (by omega)
      | cons y ys =>
        rw [hd2, hd]
        simp only [waveChunks]
    · rw [if_neg h]
      have hd : l.drop s = [] := List.drop_eq_nil_iff.mpr (by omega)
      rw [hd]
      simp only [waveChunks]

theorem waveChunks_length_le (B : Nat) :
    ∀ (p : Nat) (l : List α), (waveChunks B p l).length ≤ p := by
  intro p
  induction p with
  | zero => intro l; simp [waveChunks]
  | succ p ih =>
    intro l
    cases l with
    | nil => simp [waveChunks]
    | cons x xs =>
      simp only [waveChunks, List.length_cons]
      exact Nat.succ_le_succ (ih _)

theorem waveChunks_append_chunksAll (B : Nat) (hB : B ≠ 0) :
    ∀ (p : Nat) (l : List α),
      waveChunks B p l ++ chunksAll B (l.drop (B * p)) = chunksAll B l := by
  intro p
  induction p with
  | zero =>
    intro l
    simp [waveChunks]
  | succ p ih =>
    intro l
    cases l with
    | nil => simp [waveChunks, chunksAll]
    | cons x xs =>
      have hmul : B * (p + 1) = B + B * p := by ring
      rw [hmul, ← List.drop_drop]
      simp only [waveChunks]
      rw [List.cons_append, ih ((x :: xs).drop B), chunksAll_cons B hB]

theorem dispatchedBatches_eq_chunksAll (B P : Nat) (hB : 0 < B) (hP : 0 < P)
    (l : List α) : dispatchedBatches l B P = chunksAll B l := by
  have hM : 0 < B * P := Nat.mul_pos hB hP
  have H : ∀ (n : Nat) (l : List α), l.length ≤ n →
      dispatchedBatches l B P = chunksAll B l := by
    intro n
    induction n with
    | zero =>
      intro l hl
      have : l = [] := List.length_eq_zero.mp (by omega)
      simp [this, dispatchedBatches, ingestWaves, cld_zero hM, chunksAll]
    | succ n ih =>
      intro l hl
      cases l with
      | nil => simp [dispatchedBatches, ingestWaves, cld_zero hM, chunksAll]
      | cons x xs =>
        unfold dispatchedBatches ingestWaves
        rw [cld_step hM (by simp), List.range_succ_eq_map, List.map_cons,
          List.map_map, List.flatten_cons]
        have h0 : waveSlices (x :: xs) B P (0 * (B * P)) = waveChunks B P (x :: xs) := by
          rw [Nat.zero_mul, waveSlices_eq_waveChunks, List.drop_zero]
        have hshift : ∀ w, waveSlices (x :: xs) B P (Nat.succ w * (B * P)) =
            waveSlices ((x :: xs).drop (B * P)) B P (w * (B * P)) := by
          intro w
          rw [waveSlices_eq_waveChunks, waveSlices_eq_waveChunks,
            List.drop_drop]
          congr 2
          rw [Nat.succ_eq_add_one]
          ring
        have htail :
            (List.range (cld ((x :: xs).length - B * P) (B * P))).map
                ((fun w => waveSlices (x :: xs) B P (w * (B * P))) ∘ Nat.succ) =
              ingestWaves ((x :: xs).drop (B * P)) B P := by
          unfold ingestWaves
          rw [List.length_drop]
          exact List.map_congr_left (fun w _ => hshift w)
        rw [h0, htail]
        have hlen : ((x :: xs).drop (B * P)).length ≤ n := by
          simp only [List.length_drop, List.length_cons]
          simp only [List.length_cons] at hl
          omega
        rw [show (ingestWaves ((x :: xs).drop (B * P)) B P).flatten =
              dispatchedBatches ((x :: xs).drop (B * P)) B P from rfl,
          ih _ hlen]
        exact waveChunks_append_chunksAll B (by omega) P (x :: xs)
  exact H l.length l (Nat.le_refl _)

theorem chunksAll_dropLast_length (B : Nat) (hB : 0 < B) (l : List α) :
    ∀ b ∈ (chunksAll B l).dropLast, b.length = B := by
  have H : ∀ (n : Nat) (l : List α), l.length ≤ n →
      ∀ b ∈ (chunksAll B l).dropLast, b.length = B := by
    intro n
    induction n with
    | zero =>
      intro l hl
      have : l = [] := List.length_eq_zero.mp (by omega)
      simp [this, chunksAll]
    | succ n ih =>
      intro l hl
      cases l with
      | nil => simp [chunksAll]
      | cons x xs =>
        rw [chunksAll_cons B (by omega)]
        by_cases hrest : chunksAll B ((x :: xs).drop B) = []
        · rw [hrest]
          simp
        · have hlong : B < (x :: xs).length := by
            have := (chunksAll_eq_nil_iff B (by omega) ((x :: xs).drop B)).not.mp hrest
            have hd := (not_iff_not.mpr List.drop_eq_nil_iff).mp this
            omega
          rw [List.dropLast_cons_of_ne_nil hrest]
          intro b hb
          rcases List.mem_cons.mp hb with hbt | hbr
          · rw [hbt, List.length_take]
            omega
          · have hlen : ((x :: xs).drop B).length ≤ n := by
              simp only [List.length_drop, List.length_cons]
              simp only [List.length_cons] at hl
              omega
            exact ih _ hlen b hbr
  exact H l.length l (Nat.le_refl _)

theorem chunksAll_getLast_length (B : Nat) (hB : 0 < B) (l : List α) :
    ∀ b, (chunksAll B l).getLast? = some b →
      b.length = if l.length % B = 0 then B else l.length % B := by
  have H : ∀ (n : Nat) (l : List α), l.length ≤ n →
      ∀ b, (chunksAll B l).getLast? = some b →
        b.length = if l.length % B = 0 then B else l.length % B := by
    intro n
    induction n with
    | zero =>
      intro l hl
      have : l = [] := List.length_eq_zero.mp (by omega)
      simp [this, chunksAll]
    | succ n ih =>
      intro l hl
      cases l with
      | nil => simp [chunksAll]
      | cons x xs =>
        rw [chunksAll_cons B (by omega)]
        intro b hb
        cases hrest : chunksAll B ((x :: xs).drop B) with
        | nil =>
          rw [hrest, List.getLast?_singleton] at hb
          have hshort : (x :: xs).length ≤ B := by
            have := (chunksAll_eq_nil_iff B (by omega) ((x :: xs).drop B)).mp hrest
            have hd := List.drop_eq_nil_iff.mp this
            omega
          have hlenb : b.length = (x :: xs).length := by
            rw [← Option.some.injEq] at hb
            cases hb
            rw [List.length_take]
            omega
          rcases Nat.lt_or_ge (x :: xs).length B with hlt | hge
          · rw [if_neg (by rw [Nat.mod_eq_of_lt hlt]; simp), Nat.mod_eq_of_lt hlt,
              hlenb]
          · have heq : (x :: xs).length = B := by omega
            rw [heq] at hlenb
            rw [heq, Nat.mod_self, if_pos rfl, hlenb]
        | cons c cs =>
          rw [hrest, List.getLast?_cons_cons, ← hrest] at hb
          have hlong : B < (x :: xs).length := by
            have : chunksAll B ((x :: xs).drop B) ≠ [] := by rw [hrest]; simp
            have h2 := (chunksAll_eq_nil_iff B (by omega) ((x :: xs).drop B)).not.mp this
            have hd := (not_iff_not.mpr List.drop_eq_nil_iff).mp h2
            omega
          have hlen : ((x :: xs).drop B).length ≤ n := by
            simp only [List.length_drop, List.length_cons]
            simp only [List.length_cons] at hl
            omega
          have hmod : ((x :: xs).drop B).length % B = (x :: xs).length % B := by
            rw [List.length_drop]
            conv_rhs => rw [show (x :: xs).length = ((x :: xs).length - B) + B by omega]
            rw [Nat.add_mod_right]
          have := ih _ hlen b hb
          rw [hmod] at this
          exact this
  exact H l.length l (Nat.le_refl _)

/-! ## Helper lemmas: per-batch result aggregation -/

theorem sumOk_add_sumFailed {α : Type u} (ok : Nat → List α → Bool) :
    ∀ (bs : List (List α)) (k : Nat),
      sumOk ok k bs + sumFailed ok k bs = (bs.map List.length).sum := by
  intro bs
  induction bs with
  | nil => intro k; simp [sumOk, sumFailed]
  | cons b bs ih =>
    intro k
    simp only [sumOk, sumFailed, List.map_cons, List.sum_cons]
    by_cases h : ok k b = true
    · rw [if_pos h, if_pos h]
      have := ih (k + 1)
      omega
    · rw [if_neg h, if_neg h]
      have := ih (k + 1)
      omega

theorem sumOk_all {α : Type u} (ok : Nat → List α → Bool)
    (h : ∀ k b, ok k b = true) :
    ∀ (bs : List (List α)) (k : Nat), sumOk ok k bs = (bs.map List.length).sum := by
  intro bs
  induction bs with
  | nil => intro k; simp [sumOk]
  | cons b bs ih =>
    intro k
    simp only [sumOk, List.map_cons, List.sum_cons, if_pos (h k b)]
    rw [ih (k + 1)]

theorem sumFailed_le {α : Type u} (ok : Nat → List α → Bool) :
    ∀ (bs : List (List α)) (k : Nat),
      sumFailed ok k bs ≤ (bs.map List.length).sum := by
  intro bs k
  have := sumOk_add_sumFailed ok bs k
  omega

theorem sumOk_eq_zero {α : Type u} (ok : Nat → List α → Bool)
    (bs : List (List α)) (h : ∀ k b, b ∈ bs → ok k b = true → b.length = 0) :
    ∀ k, sumOk ok k bs = 0 := by
  induction bs with
  | nil => intro k; simp [sumOk]
  | cons b bs ih =>
    intro k
    simp only [sumOk]
    rw [ih fun k' b' hb' => h k' b' (List.mem_cons_of_mem b hb')]
    by_cases hk : ok k b = true
    · rw [if_pos hk, h k b (List.mem_cons_self b bs) hk]
    · rw [if_neg hk]

/-! ## Helper lemmas: stamped batches -/

theorem dispatched_flatten (B P : Nat) (hB : 0 < B) (hP : 0 < P) (l : List α) :
    (dispatchedBatches l B P).flatten = l := by
  rw [dispatchedBatches_eq_chunksAll B P hB hP, chunksAll_flatten B (by omega)]

theorem mem_dispatched_stamped (pid : Option String) (entries : List LogEntry)
    (B P : Nat) (hB : 0 < B) (hP : 0 < P) :
    ∀ b ∈ dispatchedBatches (entries.map (stampLog pid)) B P,
      ∀ r ∈ b, r.projectId = pid := by
  intro b hb r hr
  have hmem : r ∈ (dispatchedBatches (entries.map (stampLog pid)) B P).flatten :=
    List.mem_flatten.mpr ⟨b, hb, hr⟩
  rw [dispatched_flatten B P hB hP] at hmem
  rcases List.mem_map.mp hmem with ⟨e, _, he⟩
  rw [← he]
  rfl

theorem bulkHandler_array_ne_nil (pid : Option String) (entries : List LogEntry)
    (B P : Nat) (V : Option String → Bool) (env : Nat → Bool)
    (hne : entries ≠ []) :
    bulkHandler pid (.array entries) B P V env =
      ⟨.created (sumOk (batchOk V env) 0
          (dispatchedBatches (entries.map (stampLog pid)) B P)),
        dispatchedBatches (entries.map (stampLog pid)) B P⟩ := by
  simp only [bulkHandler]
  rw [if_neg fun h => hne (List.isEmpty_iff.mp h)]

/-! ## Claim theorems -/

/-- **C3.** For every ingestion request with `N` records and batch size `B`
(default 5000), the partitioner dispatches exactly `ceil(N/B)` batches, every
batch has size `B` except possibly the last, whose size is `N mod B` (or `B`
when `N` is an exact multiple of `B`), and concatenating the batches in
dispatch order reproduces the input sequence. -/
theorem claim_C3_batch_partition (l : List InsertDoc) (B P : Nat)
    (hB : 0 < B) (hP : 0 < P) :
    (dispatchedBatches l B P).length = (l.length + B - 1) / B
    ∧ (∀ b ∈ (dispatchedBatches l B P).dropLast, b.length = B)
    ∧ (∀ b, (dispatchedBatches l B P).getLast? = some b →
        b.length = if l.length % B = 0 then B else l.length % B)
    ∧ (dispatchedBatches l B P).flatten = l := by
  rw [dispatchedBatches_eq_chunksAll B P hB hP]
  exact ⟨chunksAll_length B hB l, chunksAll_dropLast_length B hB l,
    chunksAll_getLast_length B hB l, chunksAll_flatten B (by omega) l⟩

theorem claim_C3_batch_partition_witness :
    0 < 2 ∧ 0 < 2 ∧
      ((dispatchedBatches sampleDocs3 2 2).length = (sampleDocs3.length + 2 - 1) / 2
        ∧ (∀ b ∈ (dispatchedBatches sampleDocs3 2 2).dropLast, b.length = 2)
        ∧ (∀ b, (dispatchedBatches sampleDocs3 2 2).getLast? = some b →
            b.length = if sampleDocs3.length % 2 = 0 then 2 else sampleDocs3.length % 2)
        ∧ (dispatchedBatches sampleDocs3 2 2).flatten = sampleDocs3) :=
  ⟨by decide, by decide, claim_C3_batch_partition sampleDocs3 2 2 (by decide) (by decide)⟩

/-- **C1.** For every bulk ingestion request with `N` records partitioned
into batches: if all batch writes succeed the reported count equals `N`; if
any subset of batches fails outright the reported count equals `N` minus the
sum of the sizes of the failed batches (each failed batch contributing zero),
and processing completes for all remaining batches rather than aborting (all
`ceil(N/B)` batches are attempted regardless of failures). -/
theorem claim_C1_partial_failure_count (pid : Option String)
    (entries : List LogEntry) (B P : Nat) (V : Option String → Bool)
    (env : Nat → Bool) (hB : 0 < B) (hP : 0 < P) (hne : entries ≠ []) :
    (bulkHandler pid (.array entries) B P V env).response =
      .created (entries.length - sumFailed (batchOk V env) 0
        (dispatchedBatches (entries.map (stampLog pid)) B P))
    ∧ sumFailed (batchOk V env) 0
        (dispatchedBatches (entries.map (stampLog pid)) B P) ≤ entries.length
    ∧ ((∀ k b, batchOk V env k b = true) →
        (bulkHandler pid (.array entries) B P V env).response =
          .created entries.length)
    ∧ (bulkHandler pid (.array entries) B P V env).attempted.length =
        (entries.length + B - 1) / B := by
  have htotal :
      ((dispatchedBatches (entries.map (stampLog pid)) B P).map List.length).sum
        = entries.length := by
    rw [← List.length_flatten, dispatched_flatten B P hB hP, List.length_map]
  have hsum := sumOk_add_sumFailed (batchOk V env)
    (dispatchedBatches (entries.map (stampLog pid)) B P) 0
  rw [htotal] at hsum
  rw [bulkHandler_array_ne_nil pid entries B P V env hne]
  refine ⟨?_, by omega, ?_, ?_⟩
  · show BulkResponse.created _ = BulkResponse.created _
    congr 1
    omega
  · intro hall
    show BulkResponse.created _ = BulkResponse.created _
    congr 1
    rw [sumOk_all (batchOk V env) hall _ 0, htotal]
  · show (dispatchedBatches (entries.map (stampLog pid)) B P).length = _
    rw [dispatchedBatches_eq_chunksAll B P hB hP, chunksAll_length B hB,
      List.length_map]
    rfl

theorem claim_C1_partial_failure_count_witness :
    0 < 2 ∧ 0 < 2 ∧ [sampleEntry, sampleEntrySelf, sampleEntry] ≠ [] ∧
      ((bulkHandler (some "proj1") (.array [sampleEntry, sampleEntrySelf, sampleEntry])
          2 2 projectIdRequired envAllOk).response =
        .created ([sampleEntry, sampleEntrySelf, sampleEntry].length -
          sumFailed (batchOk projectIdRequired envAllOk) 0
            (dispatchedBatches
              ([sampleEntry, sampleEntrySelf, sampleEntry].map (stampLog (some "proj1"))) 2 2))
      ∧ sumFailed (batchOk projectIdRequired envAllOk) 0
          (dispatchedBatches
            ([sampleEntry, sampleEntrySelf, sampleEntry].map (stampLog (some "proj1"))) 2 2)
          ≤ [sampleEntry, sampleEntrySelf, sampleEntry].length
      ∧ ((∀ k b, batchOk projectIdRequired envAllOk k b = true) →
          (bulkHandler (some "proj1") (.array [sampleEntry, sampleEntrySelf, sampleEntry])
            2 2 projectIdRequired envAllOk).response =
            .created [sampleEntry, sampleEntrySelf, sampleEntry].length)
      ∧ (bulkHandler (some "proj1") (.array [sampleEntry, sampleEntrySelf, sampleEntry])
          2 2 projectIdRequired envAllOk).attempted.length =
          ([sampleEntry, sampleEntrySelf, sampleEntry].length + 2 - 1) / 2) :=
  ⟨by decide, by decide, by decide,
    claim_C1_partial_failure_count (some "proj1")
      [sampleEntry, sampleEntrySelf, sampleEntry] 2 2 projectIdRequired envAllOk
      (by decide) (by decide) (by decide)⟩

/-- **C7.** A bulk request whose `logs` field is missing, not an array, or an
empty array is rejected with a validation (client) error and no store access
is attempted — no batch is written; conversely, a non-empty array passes this
validation. -/
theorem claim_C7_input_validation (pid : Option String) (B P : Nat)
    (V : Option String → Bool) (env : Nat → Bool) (body : BodyLogs) :
    ((body = .absent ∨ (∃ t, body = .notArray t) ∨ body = .array []) →
      (bulkHandler pid body B P V env).response = .badRequest
      ∧ (bulkHandler pid body B P V env).attempted = [])
    ∧ (∀ entries, body = .array entries → entries ≠ [] →
        (bulkHandler pid body B P V env).response ≠ .badRequest) := by
  constructor
  · rintro (rfl | ⟨t, rfl⟩ | rfl) <;> simp [bulkHandler]
  · rintro entries rfl hne
    rw [bulkHandler_array_ne_nil pid entries B P V env hne]
    simp

theorem claim_C7_input_validation_witness :
    ((bulkHandler none (.array []) 1 1 projectIdRequired envAllOk).response =
        .badRequest
      ∧ (bulkHandler none (.array []) 1 1 projectIdRequired envAllOk).attempted = [])
    ∧ (bulkHandler none (.array [sampleEntry]) 1 1 projectIdRequired envAllOk).response
        ≠ .badRequest :=
  ⟨(claim_C7_input_validation none 1 1 projectIdRequired envAllOk
      (.array [])).1 (Or.inr (Or.inr rfl)),
    (claim_C7_input_validation none 1 1 projectIdRequired envAllOk
      (.array [sampleEntry])).2 [sampleEntry] rfl (by decide)⟩

/-- **C9.** Every record submitted to the store by a bulk request is stamped
with the request's project identifier before storage: each submitted
document's `projectId` equals the request-level `projectId`, including for
entries that already carried a `projectId` field of their own. -/
theorem claim_C9_stamping (pid : Option String) (entries : List LogEntry)
    (B P : Nat) (V : Option String → Bool) (env : Nat → Bool)
    (hB : 0 < B) (hP : 0 < P) :
    ∀ b ∈ (bulkHandler pid (.array entries) B P V env).attempted,
      ∀ r ∈ b, r.projectId = pid := by
  by_cases hne : entries = []
  · subst hne
    simp [bulkHandler]
  · rw [bulkHandler_array_ne_nil pid entries B P V env hne]
    exact mem_dispatched_stamped pid entries B P hB hP

theorem claim_C9_stamping_witness :
    0 < 1 ∧ 0 < 1 ∧
      ∀ b ∈ (bulkHandler (some "proj1") (.array [sampleEntrySelf]) 1 1
          projectIdRequired envAllOk).attempted,
        ∀ r ∈ b, r.projectId = some "proj1" :=
  ⟨by decide, by decide,
    claim_C9_stamping (some "proj1") [sampleEntrySelf] 1 1 projectIdRequired
      envAllOk (by decide) (by decide)⟩

/-- **C10.** The bulk endpoint validates only the `logs` field, never the
`projectId`: for every request whose `projectId` fails the store's schema
validation (in particular an absent one, by `required: true`) but whose
`logs` field is a non-empty array, validation passes and store access is
attempted; every batch write then fails the schema validation, and the
endpoint still responds with a success status and a count of 0, not a
validation error. -/
theorem claim_C10_projectId_not_validated (pid : Option String)
    (entries : List LogEntry) (B P : Nat) (V : Option String → Bool)
    (env : Nat → Bool) (hB : 0 < B) (hP : 0 < P) (hne : entries ≠ [])
    (hV : V pid = false) :
    (bulkHandler pid (.array entries) B P V env).response = .created 0
    ∧ (bulkHandler pid (.array entries) B P V env).response ≠ .badRequest
    ∧ (bulkHandler pid (.array entries) B P V env).attempted ≠ [] := by
  rw [bulkHandler_array_ne_nil pid entries B P V env hne]
  refine ⟨?_, by simp, ?_⟩
  · show BulkResponse.created _ = BulkResponse.created 0
    congr 1
    apply sumOk_eq_zero
    intro k b hb hok
    rcases b with _ | ⟨r, rs⟩
    · rfl
    · exfalso
      have hall : ((r :: rs).all fun d => V d.projectId) = true := by
        simp only [batchOk, Bool.and_eq_true] at hok
        exact hok.2
    -- the head of the batch is a stamped document, so its projectId is pid
      have hr : r.projectId = pid :=
        mem_dispatched_stamped pid entries B P hB hP _ hb r
          (List.mem_cons_self r rs)
      have hVr := List.all_eq_true.mp hall r (List.mem_cons_self r rs)
      rw [hr, hV] at hVr
      exact Bool.false_ne_true hVr
  · show dispatchedBatches (entries.map (stampLog pid)) B P ≠ []
    intro hnil
    have hfl := dispatched_flatten B P hB hP (entries.map (stampLog pid))
    rw [hnil] at hfl
    have : entries.map (stampLog pid) = [] := by simpa using hfl.symm
    exact hne (by simpa using this)

theorem claim_C10_projectId_not_validated_witness :
    0 < 1 ∧ 0 < 1 ∧ [sampleEntry] ≠ [] ∧ projectIdRequired none = false ∧
      ((bulkHandler none (.array [sampleEntry]) 1 1 projectIdRequired
          envAllOk).response = .created 0
        ∧ (bulkHandler none (.array [sampleEntry]) 1 1 projectIdRequired
            envAllOk).response ≠ .badRequest
        ∧ (bulkHandler none (.array [sampleEntry]) 1 1 projectIdRequired
            envAllOk).attempted ≠ []) :=
  ⟨by decide, by decide, by decide, by decide,
    claim_C10_projectId_not_validated none [sampleEntry] 1 1 projectIdRequired
      envAllOk (by decide) (by decide) (by decide) (by decide)⟩

/-! ## Helper lemmas: query engine membership -/

theorem mem_insertDesc (r a : LogRecord) :
    ∀ l : List LogRecord, a ∈ insertDesc r l ↔ a = r ∨ a ∈ l := by
  intro l
  induction l with
  | nil => simp [insertDesc]
  | cons x xs ih =>
    simp only [insertDesc]
    by_cases h : strLe x.timestamp r.timestamp = true
    · rw [if_pos h]
      simp
    · rw [if_neg h]
      simp only [List.mem_cons, ih]
      tauto

theorem mem_sortByTsDesc (a : LogRecord) :
    ∀ l : List LogRecord, a ∈ sortByTsDesc l ↔ a ∈ l := by
  intro l
  induction l with
  | nil => simp [sortByTsDesc]
  | cons x xs ih =>
    simp only [sortByTsDesc, mem_insertDesc, ih, List.mem_cons]

theorem runQuery_mem_matches (store : List LogRecord) (pid : String)
    (q : QueryParams) (r : LogRecord) (hr : r ∈ (runQuery store pid q).logs) :
    r ∈ store ∧ matchesQuery pid q r = true := by
  have h1 : r ∈ applyLimit (pageLimitOf q)
      ((sortByTsDesc (store.filter (matchesQuery pid q))).drop (pageSkipOf q)) := hr
  have h2 : r ∈ (sortByTsDesc (store.filter (matchesQuery pid q))).drop (pageSkipOf q) := by
    unfold applyLimit at h1
    by_cases h : pageLimitOf q = 0
    · rwa [if_pos h] at h1
    · exact List.mem_of_mem_take (by rwa [if_neg h] at h1)
  have h3 := List.mem_of_mem_drop h2
  have h4 := (mem_sortByTsDesc r _).mp h3
  exact ⟨(List.mem_filter.mp h4).1, (List.mem_filter.mp h4).2⟩

/-- **C2.** For every query request, over every combination of filters
(level set, time window, search term, limit, skip), the response's `hasMore`
flag is true if and only if the total matching count is strictly greater
than skip plus the number of records returned. -/
theorem claim_C2_hasMore_iff (store : List LogRecord) (pid : String)
    (q : QueryParams) :
    (runQuery store pid q).hasMore = true ↔
      (runQuery store pid q).total >
        pageSkipOf q + (runQuery store pid q).logs.length := by
  simp [runQuery]

theorem claim_C2_hasMore_iff_witness :
    (runQuery [sampleRecord, sampleRecord2] "p1" sampleQuery).hasMore = true ↔
      (runQuery [sampleRecord, sampleRecord2] "p1" sampleQuery).total >
        pageSkipOf sampleQuery +
          (runQuery [sampleRecord, sampleRecord2] "p1" sampleQuery).logs.length :=
  claim_C2_hasMore_iff [sampleRecord, sampleRecord2] "p1" sampleQuery

/-- **C5.** For every query with a truthy level filter, every returned record
has a level that is a member of the comma-split set; for every query with a
truthy time bound, every returned record's timestamp satisfies that bound
inclusively (in the store's string order), each given bound constraining
independently. -/
theorem claim_C5_level_time_filters (store : List LogRecord) (pid : String)
    (q : QueryParams) (r : LogRecord) (hr : r ∈ (runQuery store pid q).logs) :
    (∀ s, q.level = some s → s ≠ "" → r.level ∈ splitComma s)
    ∧ (∀ s, q.start = some s → s ≠ "" → strLe s r.timestamp = true)
    ∧ (∀ s, q.stop = some s → s ≠ "" → strLe r.timestamp s = true) := by
  have hm := (runQuery_mem_matches store pid q r hr).2
  simp only [matchesQuery, Bool.and_eq_true] at hm
  obtain ⟨⟨⟨⟨hpid, hlev⟩, hgte⟩, hlte⟩, hsearch⟩ := hm
  refine ⟨?_, ?_, ?_⟩
  · intro s hs hne
    rw [hs] at hlev
    simp only [levelClause] at hlev
    rw [if_neg (by simpa using hne)] at hlev
    simpa using hlev
  · intro s hs hne
    rw [hs] at hgte
    simp only [gteClause] at hgte
    rwa [if_neg (by simpa using hne)] at hgte
  · intro s hs hne
    rw [hs] at hlte
    simp only [lteClause] at hlte
    rwa [if_neg (by simpa using hne)] at hlte

theorem claim_C5_level_time_filters_witness :
    sampleRecord ∈ (runQuery [sampleRecord, sampleRecord2] "p1" sampleQuery).logs
    ∧ ((∀ s, sampleQuery.level = some s → s ≠ "" →
          sampleRecord.level ∈ splitComma s)
      ∧ (∀ s, sampleQuery.start = some s → s ≠ "" →
          strLe s sampleRecord.timestamp = true)
      ∧ (∀ s, sampleQuery.stop = some s → s ≠ "" →
          strLe sampleRecord.timestamp s = true)) :=
  ⟨by decide,
    claim_C5_level_time_filters [sampleRecord, sampleRecord2] "p1" sampleQuery
      sampleRecord (by decide)⟩

/-- **C8.** Deleting a project that owns `K` log records removes exactly
those records (all `K` of them and no others), the response reports
`logsDeleted = K`, and a subsequent query scoped to that project returns
`total = 0`, whatever its filters. -/
theorem claim_C8_cascade_delete (db : DB) (pid : String) :
    (deleteProject db pid).2.logsDeleted =
        (db.logs.filter fun r => r.projectId == pid).length
    ∧ (∀ r ∈ (deleteProject db pid).1.logs, r.projectId ≠ pid)
    ∧ (∀ r ∈ db.logs, r.projectId ≠ pid → r ∈ (deleteProject db pid).1.logs)
    ∧ ∀ q : QueryParams, (runQuery (deleteProject db pid).1.logs pid q).total = 0 := by
  refine ⟨rfl, ?_, ?_, ?_⟩
  · intro r hr
    have := (List.mem_filter.mp hr).2
    simpa using this
  · intro r hr hne
    exact List.mem_filter.mpr ⟨hr, by simpa using hne⟩
  · intro q
    show ((deleteProject db pid).1.logs.filter (matchesQuery pid q)).length = 0
    rw [List.length_eq_zero]
    rw [List.filter_eq_nil_iff]
    intro r hr
    have hne : r.projectId ≠ pid := by
      have := (List.mem_filter.mp hr).2
      simpa using this
    intro hmatch
    simp only [matchesQuery, Bool.and_eq_true] at hmatch
    exact hne (by simpa using hmatch.1.1.1.1)

theorem claim_C8_cascade_delete_witness :
    (deleteProject sampleDB "p1").2.logsDeleted =
        (sampleDB.logs.filter fun r => r.projectId == "p1").length
    ∧ (∀ r ∈ (deleteProject sampleDB "p1").1.logs, r.projectId ≠ "p1")
    ∧ (∀ r ∈ sampleDB.logs, r.projectId ≠ "p1" →
        r ∈ (deleteProject sampleDB "p1").1.logs)
    ∧ ∀ q : QueryParams,
        (runQuery (deleteProject sampleDB "p1").1.logs "p1" q).total = 0 :=
  claim_C8_cascade_delete sampleDB "p1"

/-! ## Helper lemmas: regex versus substring search -/

theorem regexPrefix_eq_isPrefixCI (ps : List Char) (h : '.' ∉ ps) :
    ∀ cs, regexPrefixCI ps cs = isPrefixCI ps cs := by
  induction ps with
  | nil => intro cs; rfl
  | cons p ps ih =>
    intro cs
    cases cs with
    | nil => rfl
    | cons c cs' =>
      simp only [regexPrefixCI, isPrefixCI]
      have hp : p ≠ '.' := fun hd => h (hd ▸ List.mem_cons_self p ps)
      rw [charMatchCI, if_neg hp,
        ih (fun hm => h (List.mem_cons_of_mem p hm)) cs']

theorem regexFind_eq_substr (pat text : String) (h : '.' ∉ pat.data) :
    regexFindCI pat text = specSubstrCI pat text := by
  unfold regexFindCI specSubstrCI
  congr 1
  funext suf
  exact regexPrefix_eq_isPrefixCI pat.data h suf

/-- **C6 counterexample.** The claim "a record matches a search term if and
only if the term occurs as a case-insensitive substring of message, raw or
component, for every possible search term including ones containing special
characters" is false on the code: the search term is passed to the store as
a regular expression, so the query with term `a.b` returns the record whose
message is `axb` although `a.b` is not a substring of any of its fields. -/
theorem claim_C6_substring_cex :
    (runQuery [regexCexRecord] "p1" regexCexQuery).logs = [regexCexRecord]
    ∧ regexCexQuery.search = some "a.b"
    ∧ specSubstrCI "a.b" regexCexRecord.message = false
    ∧ specSubstrCI "a.b" regexCexRecord.raw = false
    ∧ specSubstrCI "a.b" regexCexRecord.component = false := by
  decide

/-- **C6 (amended).** For every query with a free-text search term, the term
is interpreted as a case-insensitive regular expression matched anywhere in
the message, raw, or component fields (implicit OR across the three fields);
for search terms containing no regex metacharacter at all (none of
`regexMetachars`, so none of `. * + ? | ^ $ ( ) [ ]`, braces or backslash)
this coincides with case-insensitive substring search.  Terms containing
any metacharacter are outside this coincidence (and outside the modelled
regex fragment). -/
theorem claim_C6_search_no_metachar (s : String) (r : LogRecord)
    (h : ∀ c ∈ s.data, c ∉ regexMetachars) :
    searchMatches s r =
      (specSubstrCI s r.message || specSubstrCI s r.raw
        || specSubstrCI s r.component) := by
  have hdot : '.' ∉ s.data := fun hm => h '.' hm (by decide)
  rw [searchMatches, regexFind_eq_substr s _ hdot, regexFind_eq_substr s _ hdot,
    regexFind_eq_substr s _ hdot]

theorem claim_C6_search_no_metachar_witness :
    (∀ c ∈ "fail".data, c ∉ regexMetachars)
    ∧ searchMatches "fail" sampleRecord =
        (specSubstrCI "fail" sampleRecord.message
          || specSubstrCI "fail" sampleRecord.raw
          || specSubstrCI "fail" sampleRecord.component) :=
  ⟨by decide, claim_C6_search_no_metachar "fail" sampleRecord (by decide)⟩

/-! ## Helper lemmas: wave discipline trace -/

theorem take_map_dispatch_countD (g : List Nat) (n : Nat) :
    ((g.map BatchEv.dispatch).take n).countP isDispatchEv = min n g.length := by
  rw [← List.map_take, List.countP_map]
  have h : (isDispatchEv ∘ BatchEv.dispatch) = fun _ => true := by
    funext x
    rfl
  rw [h, List.countP_true]
  simp [List.length_take]

theorem take_map_dispatch_countS (g : List Nat) (n : Nat) :
    ((g.map BatchEv.dispatch).take n).countP isSettleEv = 0 := by
  rw [← List.map_take, List.countP_map]
  have h : (isSettleEv ∘ BatchEv.dispatch) = fun _ => false := by
    funext x
    rfl
  rw [h, List.countP_false]
  rfl

theorem take_map_settle_countS (g : List Nat) (n : Nat) :
    ((g.map BatchEv.settle).take n).countP isSettleEv = min n g.length := by
  rw [← List.map_take, List.countP_map]
  have h : (isSettleEv ∘ BatchEv.settle) = fun _ => true := by
    funext x
    rfl
  rw [h, List.countP_true]
  simp [List.length_take]

theorem take_map_settle_countD (g : List Nat) (n : Nat) :
    ((g.map BatchEv.settle).take n).countP isDispatchEv = 0 := by
  rw [← List.map_take, List.countP_map]
  have h : (isDispatchEv ∘ BatchEv.settle) = fun _ => false := by
    funext x
    rfl
  rw [h, List.countP_false]
  rfl

theorem waveEvents_take_countD (g : List Nat) (n : Nat) :
    ((waveEvents g).take n).countP isDispatchEv = min n g.length := by
  rw [waveEvents, List.take_append_eq_append_take, List.countP_append,
    take_map_dispatch_countD, take_map_settle_countD]
  omega

theorem waveEvents_take_countS (g : List Nat) (n : Nat) :
    ((waveEvents g).take n).countP isSettleEv = min (n - g.length) g.length := by
  rw [waveEvents, List.take_append_eq_append_take, List.countP_append,
    take_map_dispatch_countS, take_map_settle_countS, List.length_map]
  omega

theorem trace_inFlight_le (P : Nat) :
    ∀ (groups : List (List Nat)), (∀ g ∈ groups, g.length ≤ P) →
      ∀ n, inFlight (((groups.map waveEvents).flatten).take n) ≤ P := by
  intro groups
  induction groups with
  | nil =>
    intro _ n
    simp [inFlight]
  | cons g gs ih =>
    intro hg n
    rw [List.map_cons, List.flatten_cons, List.take_append_eq_append_take]
    unfold inFlight
    rw [List.countP_append, List.countP_append, waveEvents_take_countD,
      waveEvents_take_countS]
    have hgle : g.length ≤ P := hg g (List.mem_cons_self g gs)
    have hwe : (waveEvents g).length = g.length + g.length := by
      rw [waveEvents, List.length_append, List.length_map, List.length_map]
    have hrest := ih (fun g' h => hg g' (List.mem_cons_of_mem g h))
      (n - (waveEvents g).length)
    unfold inFlight at hrest
    by_cases hn : n ≤ g.length + g.length
    · have hz : n - (waveEvents g).length = 0 := by omega
      rw [hz, List.take_zero, List.countP_nil, List.countP_nil]
      omega
    · omega

theorem idxGroups_flatten : ∀ (ns : List Nat) (s : Nat),
    (idxGroups s ns).flatten = List.range' s ns.sum := by
  intro ns
  induction ns with
  | nil => intro s; simp [idxGroups]
  | cons n ns ih =>
    intro s
    simp only [idxGroups, List.flatten_cons, ih, List.sum_cons]
    have h := List.range'_append s n ns.sum 1
    simp only [one_mul] at h
    rw [h, Nat.add_comm]

theorem idxGroups_length_mem : ∀ (ns : List Nat) (s : Nat) (g : List Nat),
    g ∈ idxGroups s ns → ∃ n ∈ ns, g.length = n := by
  intro ns
  induction ns with
  | nil => intro s g h; simp [idxGroups] at h
  | cons n ns ih =>
    intro s g h
    simp only [idxGroups] at h
    rcases List.mem_cons.mp h with rfl | h2
    · exact ⟨n, List.mem_cons_self n ns, List.length_range' s 1 n⟩
    · rcases ih (s + n) g h2 with ⟨n', hn', he⟩
      exact ⟨n', List.mem_cons_of_mem n hn', he⟩

theorem idxGroups_take_ub : ∀ (ns : List Nat) (s m : Nat) (g : List Nat) (k : Nat),
    g ∈ (idxGroups s ns).take m → k ∈ g → k < s + (ns.take m).sum := by
  intro ns
  induction ns with
  | nil => intro s m g k hg _; simp [idxGroups] at hg
  | cons n ns ih =>
    intro s m g k hg hk
    cases m with
    | zero => simp at hg
    | succ m =>
      simp only [idxGroups, List.take_succ_cons, List.sum_cons] at hg ⊢
      rcases List.mem_cons.mp hg with rfl | h2
      · have h := List.mem_range'_1.mp hk
        omega
      · have h := ih (s + n) m g k h2 hk
        omega

theorem idxGroups_getD_lb : ∀ (ns : List Nat) (s w k : Nat),
    k ∈ (idxGroups s ns).getD w [] → s + (ns.take w).sum ≤ k := by
  intro ns
  induction ns with
  | nil =>
    intro s w k h
    simp only [idxGroups] at h
    rw [List.getD_eq_default _ _ (by simp)] at h
    exact absurd h (List.not_mem_nil k)
  | cons n ns ih =>
    intro s w k h
    cases w with
    | zero =>
      simp only [idxGroups, List.getD_cons_zero] at h
      have h2 := List.mem_range'_1.mp h
      simp only [List.take_zero, List.sum_nil]
      omega
    | succ w =>
      simp only [idxGroups, List.getD_cons_succ] at h
      have h2 := ih (s + n) w k h
      simp only [List.take_succ_cons, List.sum_cons]
      omega

theorem getD_mem_lt {γ : Type u} (l : List (List γ)) (w : Nat) (k : γ)
    (h : k ∈ l.getD w []) : w < l.length := by
  by_contra hge
  rw [List.getD_eq_default _ _ (by omega)] at h
  exact List.not_mem_nil k h

theorem getD_mem_take {γ : Type u} : ∀ (l : List γ) (d : γ) (w : Nat),
    w < l.length → l.getD w d ∈ l.take (w + 1) := by
  intro l
  induction l with
  | nil => intro d w h; simp at h
  | cons x xs ih =>
    intro d w h
    cases w with
    | zero => simp
    | succ w =>
      rw [List.getD_cons_succ, List.take_succ_cons]
      refine List.mem_cons_of_mem x (ih d w ?_)
      simp only [List.length_cons] at h
      omega

theorem flatten_map_take_prefix {γ : Type u} (f : List Nat → List γ)
    (groups : List (List Nat)) (m : Nat) :
    ((groups.map f).flatten).take (((groups.take m).map f).flatten).length
      = ((groups.take m).map f).flatten := by
  rw [show (List.map f groups).flatten
      = (List.map f (groups.take m)).flatten ++ (List.map f (groups.drop m)).flatten by
        rw [← List.flatten_append, ← List.map_append, List.take_append_drop]]
  exact List.take_left _ _

/-- **C4.** The ingestion coordinator processes batches in waves of at most
the parallelism ceiling `P` concurrent batch writes: the per-wave index
groups partition the dispatched batch indices consecutively in partition
order, no wave holds more than `P` batches, at every instant of the event
trace at most `P` writes are in flight, and every write of a wave settles
before any write of the next wave is dispatched. -/
theorem claim_C4_wave_discipline (l : List InsertDoc) (B P : Nat) :
    (idxGroups 0 (waveSizes l B P)).flatten =
        List.range (dispatchedBatches l B P).length
    ∧ (∀ g ∈ idxGroups 0 (waveSizes l B P), g.length ≤ P)
    ∧ (∀ n, inFlight ((ingestTrace l B P).take n) ≤ P)
    ∧ (∀ w k k', k ∈ (idxGroups 0 (waveSizes l B P)).getD w [] →
        k' ∈ (idxGroups 0 (waveSizes l B P)).getD (w + 1) [] →
        ∃ n, BatchEv.settle k ∈ (ingestTrace l B P).take n
          ∧ BatchEv.dispatch k' ∉ (ingestTrace l B P).take n) := by
  have hsum : (waveSizes l B P).sum = (dispatchedBatches l B P).length := by
    rw [dispatchedBatches, List.length_flatten]
    rfl
  have hsizes : ∀ g ∈ idxGroups 0 (waveSizes l B P), g.length ≤ P := by
    intro g hg
    rcases idxGroups_length_mem (waveSizes l B P) 0 g hg with ⟨n, hn, he⟩
    rcases List.mem_map.mp hn with ⟨wave, hwave, rfl⟩
    rcases List.mem_map.mp hwave with ⟨w, _, rfl⟩
    rw [he, waveSlices_eq_waveChunks]
    exact waveChunks_length_le B P _
  refine ⟨?_, hsizes, trace_inFlight_le P _ hsizes, ?_⟩
  · rw [idxGroups_flatten, hsum, List.range_eq_range']
  · intro w k k' hk hk'
    refine ⟨((((idxGroups 0 (waveSizes l B P)).take (w + 1)).map waveEvents).flatten).length,
      ?_, ?_⟩
    · rw [show ingestTrace l B P
          = ((idxGroups 0 (waveSizes l B P)).map waveEvents).flatten from rfl,
        flatten_map_take_prefix]
      have hwlt : w < (idxGroups 0 (waveSizes l B P)).length :=
        getD_mem_lt _ w k hk
      refine List.mem_flatten.mpr
        ⟨waveEvents ((idxGroups 0 (waveSizes l B P)).getD w []),
          List.mem_map.mpr ⟨_, getD_mem_take _ [] w hwlt, rfl⟩, ?_⟩
      rw [waveEvents]
      exact List.mem_append_right _ (List.mem_map.mpr ⟨k, hk, rfl⟩)
    · rw [show ingestTrace l B P
          = ((idxGroups 0 (waveSizes l B P)).map waveEvents).flatten from rfl,
        flatten_map_take_prefix]
      intro hmem
      rcases List.mem_flatten.mp hmem with ⟨blk, hblk, hev⟩
      rcases List.mem_map.mp hblk with ⟨g, hgmem, rfl⟩
      have hk'g : k' ∈ g := by
        rw [waveEvents] at hev
        rcases List.mem_append.mp hev with h | h
        · rcases List.mem_map.mp h with ⟨x, hx, hxe⟩
          have hxk : x = k' := by
            injection hxe
          exact hxk ▸ hx
        · rcases List.mem_map.mp h with ⟨x, _, hxe⟩
          exact absurd hxe (by simp)
      have hub := idxGroups_take_ub (waveSizes l B P) 0 (w + 1) g k' hgmem hk'g
      have hlb := idxGroups_getD_lb (waveSizes l B P) 0 (w + 1) k' hk'
      omega

theorem claim_C4_wave_discipline_witness :
    (idxGroups 0 (waveSizes sampleDocs3 1 2)).flatten =
        List.range (dispatchedBatches sampleDocs3 1 2).length
    ∧ (∀ g ∈ idxGroups 0 (waveSizes sampleDocs3 1 2), g.length ≤ 2)
    ∧ (∀ n, inFlight ((ingestTrace sampleDocs3 1 2).take n) ≤ 2)
    ∧ (∀ w k k', k ∈ (idxGroups 0 (waveSizes sampleDocs3 1 2)).getD w [] →
        k' ∈ (idxGroups 0 (waveSizes sampleDocs3 1 2)).getD (w + 1) [] →
        ∃ n, BatchEv.settle k ∈ (ingestTrace sampleDocs3 1 2).take n
          ∧ BatchEv.dispatch k' ∉ (ingestTrace sampleDocs3 1 2).take n) :=
  claim_C4_wave_discipline sampleDocs3 1 2

end LogHub
